import Mathlib

/-!
Verification of the binary sample reader and the shared CLI behaviour of the
SPTK drawing tools (`src/draw/sptk/draw_utils.py` and the per-tool `main`
functions).  The Python code is shallowly embedded: bytes are natural numbers
below 256, a byte source (file contents or the stdin byte stream) is a
`List Nat`, and scalars are represented by their raw little-endian bit
patterns (the `struct` module's native byte order on the supported platforms),
with separate semantic interpretation functions for signed integers and IEEE
binary64 values.
-/

namespace SPTKDraw

/-- The SPTK single-character data-type codes, the keys of the `sptk2struct`
table in `draw_utils.py`. -/
inductive TypeCode
  | c | C | s | S | i | I | l | L | f | d
deriving DecidableEq

/-- The `sptk2struct` table of `draw_utils.py`: each type code maps to its
`struct` format character and its per-element byte width. -/
def sptk2struct : TypeCode → Char × Nat
  | .c => ('b', 1)
  | .C => ('B', 1)
  | .s => ('h', 2)
  | .S => ('H', 2)
  | .i => ('i', 4)
  | .I => ('I', 4)
  | .l => ('q', 8)
  | .L => ('Q', 8)
  | .f => ('f', 4)
  | .d => ('d', 8)

/-- Per-element byte width of a type code (`byte_size` in `read_binary`). -/
def byteSize (t : TypeCode) : Nat := (sptk2struct t).2

/-- Little-endian word value of a byte list: the first byte is the least
significant.  This is how `struct.unpack` interprets each scalar's bytes in
native (little-endian) order. -/
def leWord (bs : List Nat) : Nat := bs.foldr (fun b acc => b + 256 * acc) 0

/-- The chunking loop of `read_binary` / `read_stdin`, with an explicit
iteration bound (`fuel`): each iteration reads `bw * dim` bytes from the front
of the source; an empty read breaks out of the loop, a full chunk is appended,
and a short chunk (a trailing partial record, on which `struct.unpack` raises
`struct.error`) breaks out of the loop. -/
def readDataF (bw dim : Nat) : Nat → List Nat → List (List Nat)
  | 0, _ => []
  | fuel + 1, src =>
    if src.take (bw * dim) = [] then []
    else if (src.take (bw * dim)).length = bw * dim then
      src.take (bw * dim) :: readDataF bw dim fuel (src.drop (bw * dim))
    else []

/-- The raw record chunks collected by the read loop of `read_binary` /
`read_stdin`.  `src.length` iterations always suffice (proved below), so the
bounded loop computes the value of the unbounded Python `while` loop. -/
def readData (bw dim : Nat) (src : List Nat) : List (List Nat) :=
  readDataF bw dim src.length src

/-- `struct.unpack(format_char * dim, buf)` on an exact-size buffer: the j-th
scalar is the little-endian word of bytes `[j*bw, (j+1)*bw)`. -/
def unpackWords (bw : Nat) : Nat → List Nat → List Nat
  | 0, _ => []
  | dim + 1, buf => leWord (buf.take bw) :: unpackWords bw dim (buf.drop bw)

/-- The list of unpacked records produced by the read loop of `read_binary` /
`read_stdin` (the Python `data` list): one `dim`-tuple of scalars per complete
chunk. -/
def readRecords (t : TypeCode) (dim : Nat) (src : List Nat) : List (List Nat) :=
  (readData (byteSize t) dim src).map (unpackWords (byteSize t) dim)

/-- The decoded array returned to the caller: a flat sequence of scalars or a
rectangular sequence of rows. -/
inductive DecodedArray
  | flat (xs : List Nat)
  | rows (rs : List (List Nat))
deriving DecidableEq

/-- `asarray` of `draw_utils.py`: `reshape(-1)` when `dim` is `None` or
`dim <= 1`, otherwise `reshape(-1, dim)`.  The `np.asarray(data, dtype=...)`
cast is the identity on the word-level representation, since `struct.unpack`
already produced scalars of the requested type. -/
def asarray (data : List (List Nat)) (dim : Option Nat) : DecodedArray :=
  match dim with
  | none => .flat data.flatten
  | some d => if d ≤ 1 then .flat data.flatten else .rows data

/-- `read_binary(filename, dim=1, dtype="d")` of `draw_utils.py`, applied to
the file's byte contents. -/
def read_binary (fileBytes : List Nat) (dim : Nat := 1) (dtype : TypeCode := .d) :
    DecodedArray :=
  asarray (readRecords dtype dim fileBytes) (some dim)

/-- `read_stdin(dim=1, dtype="d")` of `draw_utils.py`, applied to the byte
stream available on standard input. -/
def read_stdin (stdinBytes : List Nat) (dim : Nat := 1) (dtype : TypeCode := .d) :
    DecodedArray :=
  asarray (readRecords dtype dim stdinBytes) (some dim)

/-- Number of records held by a decoded array: with `dim <= 1` every scalar of
the flat result is one record; with `dim >= 2` each row is one record. -/
def numRecords : DecodedArray → Nat
  | .flat xs => xs.length
  | .rows rs => rs.length

/-! ### The inverse packing (`struct.pack`) and scalar interpretations -/

/-- The `byteSize`-byte little-endian encoding of a scalar's bit pattern: the
byte string `struct.pack` produces for one element. -/
def leBytes : Nat → Nat → List Nat
  | 0, _ => []
  | bw + 1, w => w % 256 :: leBytes bw (w / 256)

/-- Packing one `dim`-tuple: concatenation of its elements' byte strings, as
`struct.pack(format_char * dim, *tuple)` does. -/
def packTuple (t : TypeCode) (tup : List Nat) : List Nat :=
  tup.flatMap (leBytes (byteSize t))

/-- Packing a sequence of tuples into one byte buffer. -/
def packTuples (t : TypeCode) (tuples : List (List Nat)) : List Nat :=
  tuples.flatMap (packTuple t)

/-- Two's-complement reading of a `bw`-byte bit pattern, the value
`struct.unpack` reports for the signed integer formats. -/
def toSigned (bw : Nat) (w : Nat) : Int :=
  if w < 2 ^ (8 * bw - 1) then (w : Int) else (w : Int) - 2 ^ (8 * bw)

/-- Two's-complement `bw`-byte bit pattern of a signed integer, the pattern
`struct.pack` emits for the signed integer formats. -/
def ofSigned (bw : Nat) (v : Int) : Nat :=
  (v % (2 : Int) ^ (8 * bw)).toNat

/-- IEEE-754 binary64 value of a 64-bit pattern (`none` for the exponent
field 2047, i.e. infinities and NaNs): sign, biased exponent and mantissa
fields interpreted as `(-1)^s * (2^52 + m) / 2^52 * 2^(e-1023)`, written with
natural-number powers only. -/
def float64val (bits : Nat) : Option ℚ :=
  let s : Nat := bits / 2 ^ 63
  let e : Nat := bits / 2 ^ 52 % 2 ^ 11
  let m : Nat := bits % 2 ^ 52
  if e = 2047 then none
  else if e = 0 then
    some ((-1) ^ s * (m : ℚ) / 2 ^ 52 / 2 ^ 1022)
  else
    some ((-1) ^ s * ((2 ^ 52 + m : ℚ) / 2 ^ 52) * (2 ^ e / 2 ^ 1023))

/-! ### The shared per-tool input handling -/

/-- The observable world a drawing tool runs in: which paths exist
(`os.path.exists`), the bytes of each file, and the bytes piped into standard
input (empty when nothing is piped). -/
structure Env where
  fileExists : String → Bool
  fileBytes : String → List Nat
  stdinBytes : List Nat

/-- Outcome of the input-acquisition step of a tool's `main`: either the
decoded array, or a `sys.exit` with the given status after writing the given
message to the error stream. -/
inductive RunResult (α : Type) where
  | ok (val : α)
  | exited (code : Nat) (stderr : String)
deriving DecidableEq

/-- `print_error_message` of `draw_utils.py`: writes `f"{name}: {message}!"`
to `sys.stderr`. -/
def print_error_message (name message : String) : String :=
  name ++ ": " ++ message ++ "!"

/-- Whether the input-acquisition step ended in an error exit. -/
def isUsageError {α : Type} : RunResult α → Bool
  | .ok _ => false
  | .exited _ _ => true

/-- The input-selection prologue shared verbatim by every tool's `main`
(e.g. `fdrw.py` lines 293-299, `gwave.py` lines 175-181): no positional input
file means `read_stdin`; otherwise the path is checked with `os.path.exists`,
a missing path reports `"Cannot open ..."` through `print_error_message` and
exits with status 1, and an existing path is decoded with `read_binary`. -/
def acquireData (tool : String) (env : Env) (in_file : Option String)
    (dim : Nat := 1) (dtype : TypeCode := .d) : RunResult DecodedArray :=
  match in_file with
  | none => .ok (read_stdin env.stdinBytes dim dtype)
  | some f =>
    if env.fileExists f then .ok (read_binary (env.fileBytes f) dim dtype)
    else .exited 1 (print_error_message tool ("Cannot open " ++ f))

/-! ### Slicing and the gseries pipeline -/

/-- Python's `xs[s:t]` on a sequence, for non-negative bounds: `drop s` of the
whole list when the stop bound is `None`, of the first `t` elements
otherwise. -/
def pySlice {α : Type} (xs : List α) (s : Nat) (stop : Option Nat) : List α :=
  match stop with
  | none => xs.drop s
  | some t => (xs.take t).drop s

/-- The portion-selection expression shared by `gwave.py` line 183,
`gseries.py` line 225, `gspecgram.py` line 185 and `grlogsp.py` lines 206-210:
`data[s : None if e is None else e + 1]`. -/
def selectPortion {α : Type} (data : List α) (s : Nat) (e : Option Nat) :
    List α :=
  pySlice data s (e.map (· + 1))

/-- Observable actions of a tool after its input has been decoded. -/
inductive Event
  | warn (message : String)
  | writeImage (path : String)
deriving DecidableEq

/-- `print_warn_message` of `draw_utils.py`: issues the non-fatal
`warnings.warn(f"{name}: {message}", RuntimeWarning)`. -/
def print_warn_message (name message : String) : Event :=
  .warn (name ++ ": " ++ message)

/-- Result of running a tool's post-decode pipeline: the ordered trace of
observable actions and the process exit status. -/
structure ToolRun where
  events : List Event
  exitCode : Nat
deriving DecidableEq

/-- The post-decode pipeline of `gseries.py` `main` (lines 225-316): slice the
decoded data with `-s`/`-e`, warn when more than 100000 points remain, then
render the figure and write it with `fig.write_image`, falling off the end of
`main` with exit status 0.  The chart construction between the warning and
`write_image` is a pure pass-through to the external plotting library and
contributes no observable action besides the final image write. -/
def gseriesMain (data : List Nat) (start_point : Nat) (end_point : Option Nat)
    (out_file : String) : ToolRun :=
  let y := selectPortion data start_point end_point
  let warns :=
    if 100000 < y.length then
      [print_warn_message "gseries" "Too many data points. This takes a long time."]
    else []
  { events := warns ++ [Event.writeImage out_file], exitCode := 0 }

/-! ### The unbounded while loop of the reader, with explicit fuel -/

/-- Direct model of the `while True` loop of `read_binary` / `read_stdin`
including its accumulator list `data`, with an explicit fuel bound so that
running out of iterations is observable as `none`.  One iteration: read
`bw * dim` bytes; an empty read breaks, a full chunk is appended and the loop
continues, a short chunk (on which `struct.unpack` raises) breaks. -/
def readLoop (bw dim : Nat) : Nat → List Nat → List (List Nat) →
    Option (List (List Nat))
  | 0, _, _ => none
  | fuel + 1, src, acc =>
    if src.take (bw * dim) = [] then some acc.reverse
    else if (src.take (bw * dim)).length = bw * dim then
      readLoop bw dim fuel (src.drop (bw * dim)) (src.take (bw * dim) :: acc)
    else some acc.reverse

/-! ### Concrete data for the specified scenarios -/

/-- The byte buffer of the spec's concrete scenario: eight little-endian
IEEE binary64 values `0.0, 1.0, ..., 7.0`. -/
def float64buf : List Nat :=
  [0x00, 0x00, 0x00, 0x00, 0x00, 0x00, 0x00, 0x00,
   0x00, 0x00, 0x00, 0x00, 0x00, 0x00, 0xF0, 0x3F,
   0x00, 0x00, 0x00, 0x00, 0x00, 0x00, 0x00, 0x40,
   0x00, 0x00, 0x00, 0x00, 0x00, 0x00, 0x08, 0x40,
   0x00, 0x00, 0x00, 0x00, 0x00, 0x00, 0x10, 0x40,
   0x00, 0x00, 0x00, 0x00, 0x00, 0x00, 0x14, 0x40,
   0x00, 0x00, 0x00, 0x00, 0x00, 0x00, 0x18, 0x40,
   0x00, 0x00, 0x00, 0x00, 0x00, 0x00, 0x1C, 0x40]

/-- The 64-bit patterns of the doubles `0.0, 1.0, ..., 7.0`. -/
def float64words : List Nat :=
  [0x0000000000000000, 0x3FF0000000000000, 0x4000000000000000,
   0x4008000000000000, 0x4010000000000000, 0x4014000000000000,
   0x4018000000000000, 0x401C000000000000]

/-- An environment in which every path exists, every file holds two bytes,
and three bytes are piped into standard input: both an input file and piped
standard input are supplied. -/
def envBothInputs : Env :=
  { fileExists := fun _ => true
    fileBytes := fun _ => [0x01, 0x02]
    stdinBytes := [0xAA, 0xBB, 0xCC] }

/-- An environment in which every path exists and nothing is piped in. -/
def envFileOnly : Env :=
  { fileExists := fun _ => true
    fileBytes := fun _ => []
    stdinBytes := [] }

/-- An environment in which no path exists. -/
def envNoFile : Env :=
  { fileExists := fun _ => false
    fileBytes := fun _ => [0x05]
    stdinBytes := [] }

/-! ### Fuel sufficiency for the read loop -/

theorem byteSize_pos (t : TypeCode) : 0 < byteSize t := by
  cases t <;> decide

theorem readDataF_succ_stable (bw dim : Nat) :
    ∀ (fuel : Nat) (src : List Nat), src.length ≤ fuel →
      readDataF bw dim (fuel + 1) src = readDataF bw dim fuel src := by
  intro fuel
  induction fuel with
  | zero =>
    intro src h
    have hsrc : src = [] := List.eq_nil_of_length_eq_zero (Nat.le_zero.mp h)
    subst hsrc
    simp [readDataF]
  | succ n ih =>
    intro src h
    by_cases h1 : src.take (bw * dim) = []
    · simp [readDataF, h1]
    · by_cases h2 : (src.take (bw * dim)).length = bw * dim
      · have hchunk : bw * dim ≠ 0 := by
          intro h0
          exact h1 (by simp [h0])
        have hsrc : src ≠ [] := by
          intro h0
          exact h1 (by simp [h0])
        have hlen : (src.drop (bw * dim)).length ≤ n := by
          have h3 : 0 < src.length := List.length_pos.mpr hsrc
          have h4 : 0 < bw * dim := Nat.pos_of_ne_zero hchunk
          simp only [List.length_drop]
          omega
        show (if src.take (bw * dim) = [] then []
              else if (src.take (bw * dim)).length = bw * dim then
                src.take (bw * dim) :: readDataF bw dim (n + 1) (src.drop (bw * dim))
              else []) = _
        rw [if_neg h1, if_pos h2, ih _ hlen]
        show _ = (if src.take (bw * dim) = [] then []
              else if (src.take (bw * dim)).length = bw * dim then
                src.take (bw * dim) :: readDataF bw dim n (src.drop (bw * dim))
              else [])
        rw [if_neg h1, if_pos h2]
      · show (if src.take (bw * dim) = [] then []
              else if (src.take (bw * dim)).length = bw * dim then
                src.take (bw * dim) :: readDataF bw dim (n + 1) (src.drop (bw * dim))
              else []) = _
        rw [if_neg h1, if_neg h2]
        show _ = (if src.take (bw * dim) = [] then []
              else if (src.take (bw * dim)).length = bw * dim then
                src.take (bw * dim) :: readDataF bw dim n (src.drop (bw * dim))
              else [])
        rw [if_neg h1, if_neg h2]

theorem readDataF_add_stable (bw dim : Nat) :
    ∀ (k fuel : Nat) (src : List Nat), src.length ≤ fuel →
      readDataF bw dim (fuel + k) src = readDataF bw dim fuel src := by
  intro k
  induction k with
  | zero => intro fuel src _; rfl
  | succ n ih =>
    intro fuel src h
    have h1 : src.length ≤ fuel + n := by omega
    calc readDataF bw dim (fuel + (n + 1)) src
        = readDataF bw dim ((fuel + n) + 1) src := by ring_nf
      _ = readDataF bw dim (fuel + n) src := readDataF_succ_stable bw dim _ src h1
      _ = readDataF bw dim fuel src := ih fuel src h

theorem readDataF_stable (bw dim fuel : Nat) (src : List Nat)
    (h : src.length ≤ fuel) :
    readDataF bw dim fuel src = readData bw dim src := by
  have h1 : fuel = src.length + (fuel - src.length) := by omega
  rw [readData, h1, readDataF_add_stable bw dim _ _ src le_rfl]

/-! ### Unfolding equations for the read loop -/

theorem readData_nil (bw dim : Nat) : readData bw dim [] = [] := rfl

theorem readData_zero (bw dim : Nat) (src : List Nat) (h : bw * dim = 0) :
    readData bw dim src = [] := by
  cases src with
  | nil => rfl
  | cons a as => simp [readData, readDataF, h]

theorem readData_step (bw dim : Nat) (src : List Nat)
    (h0 : bw * dim ≠ 0) (hle : bw * dim ≤ src.length) :
    readData bw dim src =
      src.take (bw * dim) :: readData bw dim (src.drop (bw * dim)) := by
  have hpos : 0 < src.length := by omega
  have hne : src ≠ [] := List.length_pos.mp hpos
  obtain ⟨n, hn⟩ : ∃ n, src.length = n + 1 := ⟨src.length - 1, by omega⟩
  have htake : (src.take (bw * dim)).length = bw * dim := by
    rw [List.length_take]
    exact Nat.min_eq_left hle
  have htne : src.take (bw * dim) ≠ [] := by
    intro h1
    have h2 : (src.take (bw * dim)).length = 0 := by rw [h1]; rfl
    rw [htake] at h2
    exact h0 h2
  have hdrop : (src.drop (bw * dim)).length ≤ n := by
    rw [List.length_drop, hn]
    omega
  calc readData bw dim src
      = readDataF bw dim (n + 1) src := by rw [readData, hn]
    _ = src.take (bw * dim) :: readDataF bw dim n (src.drop (bw * dim)) := by
        show (if src.take (bw * dim) = [] then []
              else if (src.take (bw * dim)).length = bw * dim then
                src.take (bw * dim) :: readDataF bw dim n (src.drop (bw * dim))
              else []) = _
        rw [if_neg htne, if_pos htake]
    _ = src.take (bw * dim) :: readData bw dim (src.drop (bw * dim)) := by
        rw [readDataF_stable bw dim n _ hdrop]

theorem readData_short (bw dim : Nat) (src : List Nat)
    (hne : src ≠ []) (hlt : src.length < bw * dim) :
    readData bw dim src = [] := by
  obtain ⟨n, hn⟩ : ∃ n, src.length = n + 1 :=
    ⟨src.length - 1, by have := List.length_pos.mpr hne; omega⟩
  have htake : src.take (bw * dim) = src := List.take_of_length_le (by omega)
  have hlen : (src.take (bw * dim)).length ≠ bw * dim := by
    rw [htake]; omega
  have htne : src.take (bw * dim) ≠ [] := by
    rw [htake]; exact hne
  rw [readData, hn]
  show (if src.take (bw * dim) = [] then []
        else if (src.take (bw * dim)).length = bw * dim then
          src.take (bw * dim) :: readDataF bw dim n (src.drop (bw * dim))
        else []) = _
  rw [if_neg htne, if_neg hlen]

/-- Each iteration that appends a record consumes one full record of bytes, so
the number of collected chunks is the number of complete records in the
source. -/
theorem readData_length (bw dim : Nat) (hpos : 0 < bw * dim) :
    ∀ (n : Nat) (src : List Nat), src.length ≤ n →
      (readData bw dim src).length = src.length / (bw * dim) := by
  intro n
  induction n with
  | zero =>
    intro src h
    have hsrc : src = [] := List.eq_nil_of_length_eq_zero (Nat.le_zero.mp h)
    subst hsrc
    simp [readData_nil]
  | succ n ih =>
    intro src h
    by_cases hc : bw * dim ≤ src.length
    · rw [readData_step bw dim src (by omega) hc]
      have hdrop : (src.drop (bw * dim)).length ≤ n := by
        simp [List.length_drop]; omega
      simp only [List.length_cons, ih _ hdrop, List.length_drop]
      rw [Nat.div_eq_sub_div hpos hc]
    · push_neg at hc
      cases src with
      | nil => simp [readData_nil]
      | cons a as =>
        rw [readData_short bw dim _ (by simp) hc]
        rw [List.length_nil, eq_comm]
        exact Nat.div_eq_of_lt (by simpa using hc)

/-- Every chunk collected by the read loop is one full record of bytes. -/
theorem readData_mem_length (bw dim : Nat) :
    ∀ (n : Nat) (src : List Nat), src.length ≤ n →
      ∀ chunk ∈ readData bw dim src, chunk.length = bw * dim := by
  intro n
  induction n with
  | zero =>
    intro src h
    have hsrc : src = [] := List.eq_nil_of_length_eq_zero (Nat.le_zero.mp h)
    subst hsrc
    simp [readData_nil]
  | succ n ih =>
    intro src h chunk hmem
    by_cases h0 : bw * dim = 0
    · rw [readData_zero bw dim src h0] at hmem
      simp at hmem
    by_cases hc : bw * dim ≤ src.length
    · rw [readData_step bw dim src h0 hc] at hmem
      have hdrop : (src.drop (bw * dim)).length ≤ n := by
        have : 0 < bw * dim := by omega
        simp [List.length_drop]; omega
      rcases List.mem_cons.mp hmem with h1 | h1
      · subst h1
        simp [List.length_take]
        omega
      · exact ih _ hdrop chunk h1
    · push_neg at hc
      cases src with
      | nil => rw [readData_nil] at hmem; simp at hmem
      | cons a as =>
        rw [readData_short bw dim _ (by simp) hc] at hmem
        simp at hmem

theorem unpackWords_length (bw : Nat) :
    ∀ (dim : Nat) (buf : List Nat), (unpackWords bw dim buf).length = dim := by
  intro dim
  induction dim with
  | zero => intro buf; rfl
  | succ n ih => intro buf; simp [unpackWords, ih]

theorem readRecords_length (t : TypeCode) (dim : Nat) (src : List Nat)
    (hdim : 0 < dim) :
    (readRecords t dim src).length = src.length / (byteSize t * dim) := by
  rw [readRecords, List.length_map]
  exact readData_length (byteSize t) dim
    (Nat.mul_pos (byteSize_pos t) hdim) src.length src le_rfl

theorem readRecords_flatten_length (t : TypeCode) (dim : Nat) (src : List Nat) :
    (readRecords t dim src).flatten.length = (readData (byteSize t) dim src).length * dim := by
  rw [readRecords, List.length_flatten, List.map_map]
  have h : (List.length ∘ unpackWords (byteSize t) dim) = fun _ => dim := by
    funext buf
    exact unpackWords_length (byteSize t) dim buf
  rw [h, List.map_const', List.sum_replicate, smul_eq_mul]

/-! ### Round-trip lemmas -/

theorem leBytes_length (bw : Nat) : ∀ w : Nat, (leBytes bw w).length = bw := by
  induction bw with
  | zero => intro w; rfl
  | succ n ih => intro w; simp [leBytes, ih]

theorem leWord_nil : leWord [] = 0 := rfl

theorem leWord_cons (b : Nat) (bs : List Nat) :
    leWord (b :: bs) = b + 256 * leWord bs := rfl

theorem leWord_leBytes (bw : Nat) :
    ∀ w : Nat, w < 2 ^ (8 * bw) → leWord (leBytes bw w) = w := by
  induction bw with
  | zero =>
    intro w hw
    have hw1 : w < 1 := by simpa using hw
    have hw0 : w = 0 := by omega
    subst hw0
    rfl
  | succ n ih =>
    intro w hw
    have hsplit : 2 ^ (8 * (n + 1)) = 2 ^ (8 * n) * 256 := by
      rw [Nat.mul_add, Nat.pow_add]
    have hdiv : w / 256 < 2 ^ (8 * n) := by
      rw [Nat.div_lt_iff_lt_mul (by norm_num : (0:Nat) < 256)]
      omega
    rw [leBytes, leWord_cons, ih _ hdiv]
    omega

theorem packTuple_length (t : TypeCode) (tup : List Nat) :
    (packTuple t tup).length = tup.length * byteSize t := by
  induction tup with
  | nil => simp [packTuple]
  | cons w rest ih =>
    simp only [packTuple, List.flatMap_cons, List.length_append,
      leBytes_length, List.length_cons] at *
    rw [ih]
    ring

theorem unpackWords_packTuple (t : TypeCode) :
    ∀ (tup : List Nat), (∀ w ∈ tup, w < 2 ^ (8 * byteSize t)) →
      unpackWords (byteSize t) tup.length (packTuple t tup) = tup := by
  intro tup
  induction tup with
  | nil => intro _; rfl
  | cons w rest ih =>
    intro hb
    have hw : w < 2 ^ (8 * byteSize t) := hb w (List.mem_cons_self w rest)
    have hrest : ∀ x ∈ rest, x < 2 ^ (8 * byteSize t) :=
      fun x hx => hb x (List.mem_cons_of_mem w hx)
    have hlen : (leBytes (byteSize t) w).length = byteSize t :=
      leBytes_length (byteSize t) w
    show unpackWords (byteSize t) (rest.length + 1)
        (leBytes (byteSize t) w ++ packTuple t rest) = w :: rest
    rw [unpackWords]
    congr 1
    · rw [List.take_left' hlen]
      exact leWord_leBytes (byteSize t) w hw
    · rw [List.drop_left' hlen]
      exact ih hrest

theorem readRecords_packTuples (t : TypeCode) (dim : Nat) (hdim : 0 < dim) :
    ∀ (tuples : List (List Nat)),
      (∀ tup ∈ tuples, tup.length = dim) →
      (∀ tup ∈ tuples, ∀ w ∈ tup, w < 2 ^ (8 * byteSize t)) →
      readRecords t dim (packTuples t tuples) = tuples := by
  intro tuples
  induction tuples with
  | nil => intro _ _; rfl
  | cons tup rest ih =>
    intro hshape hrange
    have htl : tup.length = dim := hshape tup (List.mem_cons_self tup rest)
    have hptl : (packTuple t tup).length = byteSize t * dim := by
      rw [packTuple_length, htl]; ring
    have hchunk : byteSize t * dim ≠ 0 :=
      Nat.mul_ne_zero (byteSize_pos t).ne' hdim.ne'
    have hsrc : packTuples t (tup :: rest) =
        packTuple t tup ++ packTuples t rest := by
      simp [packTuples]
    have htake : (packTuples t (tup :: rest)).take (byteSize t * dim) =
        packTuple t tup := by
      rw [hsrc, ← hptl, List.take_left]
    have hdrop : (packTuples t (tup :: rest)).drop (byteSize t * dim) =
        packTuples t rest := by
      rw [hsrc, ← hptl, List.drop_left]
    have hle : byteSize t * dim ≤ (packTuples t (tup :: rest)).length := by
      rw [hsrc, List.length_append, hptl]
      omega
    rw [readRecords, readData_step _ _ _ hchunk hle, htake, hdrop,
      List.map_cons]
    congr 1
    · rw [← htl]
      exact unpackWords_packTuple t tup
        (hrange tup (List.mem_cons_self tup rest))
    · have ih2 := ih (fun x hx => hshape x (List.mem_cons_of_mem tup hx))
        (fun x hx => hrange x (List.mem_cons_of_mem tup hx))
      rw [readRecords] at ih2
      exact ih2

/-- Two's-complement pack-then-unpack is the identity on the representable
range of a signed integer type. -/
theorem toSigned_ofSigned (bw : Nat) (v : Int) (hbw : 0 < bw)
    (hlo : -(2 : Int) ^ (8 * bw - 1) ≤ v) (hhi : v < 2 ^ (8 * bw - 1)) :
    toSigned bw (ofSigned bw v) = v := by
  have h1 : 8 * bw = (8 * bw - 1) + 1 := by omega
  have hsplit : (2 : Int) ^ (8 * bw) = 2 ^ (8 * bw - 1) * 2 := by
    conv_lhs => rw [h1, pow_succ]
  have hA : (0 : Int) < 2 ^ (8 * bw - 1) := pow_pos (by norm_num) _
  have hcast : ((2 ^ (8 * bw - 1) : Nat) : Int) = (2 : Int) ^ (8 * bw - 1) := by
    push_cast; ring
  by_cases hv : 0 ≤ v
  · have hmod : v % (2 : Int) ^ (8 * bw) = v :=
      Int.emod_eq_of_lt hv (by omega)
    have htn : ((ofSigned bw v : Nat) : Int) = v := by
      rw [ofSigned, hmod, Int.toNat_of_nonneg hv]
    have hlt : ofSigned bw v < 2 ^ (8 * bw - 1) := by
      have h2 : ((ofSigned bw v : Nat) : Int) <
          ((2 ^ (8 * bw - 1) : Nat) : Int) := by
        rw [htn, hcast]; exact hhi
      exact_mod_cast h2
    rw [toSigned, if_pos hlt, htn]
  · push_neg at hv
    have hpos : 0 ≤ v + 2 ^ (8 * bw) := by omega
    have hlt2 : v + 2 ^ (8 * bw) < 2 ^ (8 * bw) := by omega
    have hmod : v % (2 : Int) ^ (8 * bw) = v + 2 ^ (8 * bw) := by
      have h2 : (v + 2 ^ (8 * bw) * 1) % (2 : Int) ^ (8 * bw) =
          v % (2 : Int) ^ (8 * bw) :=
        Int.add_mul_emod_self_left v (2 ^ (8 * bw)) 1
      rw [mul_one] at h2
      rw [← h2]
      exact Int.emod_eq_of_lt hpos hlt2
    have htn : ((ofSigned bw v : Nat) : Int) = v + 2 ^ (8 * bw) := by
      rw [ofSigned, hmod, Int.toNat_of_nonneg hpos]
    have hge : ¬ ofSigned bw v < 2 ^ (8 * bw - 1) := by
      intro hcon
      have h2 : ((ofSigned bw v : Nat) : Int) <
          ((2 ^ (8 * bw - 1) : Nat) : Int) := by exact_mod_cast hcon
      rw [htn, hcast] at h2
      omega
    rw [toSigned, if_neg hge, htn]
    ring

/-! ### Shape and record-count helpers -/

theorem asarray_some (data : List (List Nat)) (d : Nat) :
    asarray data (some d) = if d ≤ 1 then .flat data.flatten else .rows data :=
  rfl

theorem numRecords_read_binary (t : TypeCode) (dim : Nat) (src : List Nat)
    (hdim : 1 ≤ dim) :
    numRecords (read_binary src dim t) = src.length / (byteSize t * dim) := by
  rw [read_binary, asarray_some]
  by_cases h1 : dim ≤ 1
  · have hd1 : dim = 1 := le_antisymm h1 hdim
    subst hd1
    rw [if_pos le_rfl]
    show (readRecords t 1 src).flatten.length = _
    rw [readRecords_flatten_length, mul_one]
    have h2 : (readData (byteSize t) 1 src).length = (readRecords t 1 src).length := by
      rw [readRecords, List.length_map]
    rw [h2, readRecords_length t 1 src Nat.one_pos]
  · rw [if_neg h1]
    show (readRecords t dim src).length = _
    exact readRecords_length t dim src (by omega)

/-! ### Claim theorems -/

/-- C1: for every supported type code (byte width from the `sptk2struct`
table) and every `dim >= 1`, decoding a byte source of length
`k * byte_width * dim + r` with `r < byte_width * dim` via `read_binary` or
`read_stdin` yields exactly `k` records: the case `r = 0` is the exact-length
case, and `0 < r` is a trailing partial record that is silently dropped. -/
theorem C1_record_count (t : TypeCode) (dim k r : Nat) (src : List Nat)
    (hdim : 1 ≤ dim) (hr : r < byteSize t * dim)
    (hlen : src.length = k * (byteSize t * dim) + r) :
    numRecords (read_binary src dim t) = k ∧
    numRecords (read_stdin src dim t) = k := by
  have hstdin : read_stdin src dim t = read_binary src dim t := rfl
  have hc : 0 < byteSize t * dim :=
    Nat.mul_pos (byteSize_pos t) (by omega)
  have hdiv : src.length / (byteSize t * dim) = k := by
    rw [hlen, Nat.mul_comm k, Nat.mul_add_div hc, Nat.div_eq_of_lt hr,
      Nat.add_zero]
  rw [hstdin, numRecords_read_binary t dim src hdim, hdiv]
  exact ⟨rfl, rfl⟩

theorem C1_record_count_witness :
    1 ≤ 3 ∧ 4 < byteSize TypeCode.s * 3 ∧
    (List.replicate 16 7 : List Nat).length = 2 * (byteSize TypeCode.s * 3) + 4 ∧
    numRecords (read_binary (List.replicate 16 7) 3 TypeCode.s) = 2 ∧
    numRecords (read_stdin (List.replicate 16 7) 3 TypeCode.s) = 2 :=
  ⟨by decide, by decide, by decide,
   C1_record_count TypeCode.s 3 2 4 (List.replicate 16 7)
     (by decide) (by decide) (by decide)⟩

/-- C5: decoding an empty byte source with any valid type code and any
`dim >= 1` yields zero records and a well-formed empty array of the
documented shape (flat for `dim = 1`, zero rows for `dim >= 2`); no error
path exists. -/
theorem C5_empty_source (t : TypeCode) (dim : Nat) (hdim : 1 ≤ dim) :
    numRecords (read_binary [] dim t) = 0 ∧
    numRecords (read_stdin [] dim t) = 0 ∧
    (dim = 1 → read_binary [] dim t = DecodedArray.flat []) ∧
    (2 ≤ dim → read_binary [] dim t = DecodedArray.rows []) := by
  have hrec : readRecords t dim [] = [] := rfl
  refine ⟨?_, ?_, ?_, ?_⟩
  · rw [numRecords_read_binary t dim [] hdim]
    simp
  · show numRecords (read_binary [] dim t) = 0
    rw [numRecords_read_binary t dim [] hdim]
    simp
  · intro h1
    subst h1
    rfl
  · intro h2
    rw [read_binary, hrec, asarray_some, if_neg (by omega)]

theorem C5_empty_source_witness :
    1 ≤ 2 ∧
    numRecords (read_binary [] 2 TypeCode.f) = 0 ∧
    numRecords (read_stdin [] 2 TypeCode.f) = 0 ∧
    (2 = 1 → read_binary [] 2 TypeCode.f = DecodedArray.flat []) ∧
    (2 ≤ 2 → read_binary [] 2 TypeCode.f = DecodedArray.rows []) :=
  ⟨by decide, C5_empty_source TypeCode.f 2 (by decide)⟩

/-- C7: when the caller supplies neither a data-type flag nor a dimension,
the readers' defaults apply — `read_binary` and `read_stdin` default to the
8-byte floating-point type code `d` and dimension 1 (matching
`parser.set_defaults(dtype="d")` in `get_default_parser`). -/
theorem C7_reader_defaults (src : List Nat) :
    read_binary src = read_binary src 1 TypeCode.d ∧
    read_stdin src = read_stdin src 1 TypeCode.d ∧
    read_binary src 1 TypeCode.d =
      asarray (readRecords TypeCode.d 1 src) (some 1) ∧
    read_stdin src 1 TypeCode.d =
      asarray (readRecords TypeCode.d 1 src) (some 1) :=
  ⟨rfl, rfl, rfl, rfl⟩

/-- C2: the decoded array has the documented shape — for `dim <= 1` a flat
sequence of scalars, for `dim >= 2` a rectangular sequence of `dim`-tuples
whose row count is the number of complete records; and the concrete scenario:
the buffer of eight little-endian binary64 values `0.0 .. 7.0` decodes with
type code `d` and `dim = 1` to the flat sequence `0.0 .. 7.0`, and with
`dim = 2` to the four pairs `(0,1), (2,3), (4,5), (6,7)`. -/
theorem C2_decoded_shape (t : TypeCode) (dim : Nat) (src : List Nat)
    (hdim : 2 ≤ dim) :
    read_binary src dim t = DecodedArray.rows (readRecords t dim src) ∧
    ((readRecords t dim src).all fun row => row.length == dim) = true ∧
    (readRecords t dim src).length = (readData (byteSize t) dim src).length ∧
    read_binary src 1 t = DecodedArray.flat (readRecords t 1 src).flatten ∧
    read_binary float64buf 1 TypeCode.d = DecodedArray.flat float64words ∧
    float64words.map float64val =
      [some 0, some 1, some 2, some 3, some 4, some 5, some 6, some 7] ∧
    read_binary float64buf 2 TypeCode.d =
      DecodedArray.rows
        [[0x0000000000000000, 0x3FF0000000000000],
         [0x4000000000000000, 0x4008000000000000],
         [0x4010000000000000, 0x4014000000000000],
         [0x4018000000000000, 0x401C000000000000]] ∧
    ([[0x0000000000000000, 0x3FF0000000000000],
      [0x4000000000000000, 0x4008000000000000],
      [0x4010000000000000, 0x4014000000000000],
      [0x4018000000000000, 0x401C000000000000]].map
        fun row => row.map float64val) =
      [[some 0, some 1], [some 2, some 3], [some 4, some 5], [some 6, some 7]] := by
  refine ⟨?_, ?_, ?_, ?_, by decide, ?_, by decide, ?_⟩
  · rw [read_binary, asarray_some, if_neg (by omega)]
  · rw [List.all_eq_true]
    intro row hrow
    rw [readRecords] at hrow
    obtain ⟨chunk, _, hchunk⟩ := List.mem_map.mp hrow
    rw [← hchunk]
    exact beq_iff_eq.mpr (unpackWords_length (byteSize t) dim chunk)
  · rw [readRecords, List.length_map]
  · rw [read_binary, asarray_some, if_pos le_rfl]
  · norm_num [float64words, float64val]
  · norm_num [float64val]

theorem C2_decoded_shape_witness :
    (2 ≤ 2 ∧
      read_binary float64buf 2 TypeCode.d =
        DecodedArray.rows (readRecords TypeCode.d 2 float64buf)) ∧
    ((readRecords TypeCode.d 2 float64buf).all fun row => row.length == 2) = true :=
  ⟨⟨by decide, (C2_decoded_shape TypeCode.d 2 float64buf (by decide)).1⟩,
   (C2_decoded_shape TypeCode.d 2 float64buf (by decide)).2.1⟩

/-- C3: round-trip — packing tuples of in-range scalar bit patterns with the
reader's `struct` format (little-endian, `byteSize` bytes per element) and
decoding the buffer with the same type code and dimension reproduces the
tuples exactly; the decoded array is the array of the original tuples; and on
the signed interpretation, pack-then-unpack is the identity on every value
representable in the type, so the round trip is bit-exact. -/
theorem C3_roundtrip (t : TypeCode) (dim : Nat) (tuples : List (List Nat))
    (v : Int) (hdim : 1 ≤ dim)
    (hshape : ∀ tup ∈ tuples, tup.length = dim)
    (hrange : ∀ tup ∈ tuples, ∀ w ∈ tup, w < 2 ^ (8 * byteSize t))
    (hlo : -(2 : Int) ^ (8 * byteSize t - 1) ≤ v)
    (hhi : v < 2 ^ (8 * byteSize t - 1)) :
    readRecords t dim (packTuples t tuples) = tuples ∧
    read_binary (packTuples t tuples) dim t = asarray tuples (some dim) ∧
    toSigned (byteSize t) (ofSigned (byteSize t) v) = v := by
  have h1 : readRecords t dim (packTuples t tuples) = tuples :=
    readRecords_packTuples t dim (by omega) tuples hshape hrange
  refine ⟨h1, ?_, toSigned_ofSigned (byteSize t) v (byteSize_pos t) hlo hhi⟩
  rw [read_binary, h1]

theorem C3_roundtrip_witness :
    readRecords TypeCode.c 2 (packTuples TypeCode.c [[1, 255], [0, 128]]) =
      [[1, 255], [0, 128]] ∧
    read_binary (packTuples TypeCode.c [[1, 255], [0, 128]]) 2 TypeCode.c =
      asarray [[1, 255], [0, 128]] (some 2) ∧
    toSigned (byteSize TypeCode.c) (ofSigned (byteSize TypeCode.c) (-5)) = -5 :=
  C3_roundtrip TypeCode.c 2 [[1, 255], [0, 128]] (-5)
    (by decide) (by decide) (by decide) (by decide) (by decide)

/-- C4 counterexample: the claim that supplying both a positional input file
and piped standard input is rejected as a usage error is false — in an
environment whose standard input holds piped bytes, passing an existing file
path produces no error exit: the file is decoded and the piped input is
ignored.  No tool's `main` inspects standard input when `args.in_file` is
set. -/
theorem C4_both_inputs_not_rejected :
    envBothInputs.stdinBytes ≠ [] ∧
    isUsageError (acquireData "fdrw" envBothInputs (some "input.dat")) = false ∧
    acquireData "fdrw" envBothInputs (some "input.dat") =
      RunResult.ok (read_binary (envBothInputs.fileBytes "input.dat")) :=
  ⟨by decide, rfl, rfl⟩

/-- C4 (amended): supplying no positional input file makes the tool read its
data from standard input; supplying a positional input file (whether or not
standard input is piped) makes the tool read the file, ignoring standard
input, and this is not rejected. -/
theorem C4_input_selection (tool : String) (env : Env) (f : String)
    (dim : Nat) (t : TypeCode) (hex : env.fileExists f = true) :
    acquireData tool env none dim t =
      RunResult.ok (read_stdin env.stdinBytes dim t) ∧
    acquireData tool env (some f) dim t =
      RunResult.ok (read_binary (env.fileBytes f) dim t) := by
  refine ⟨rfl, ?_⟩
  show (if env.fileExists f then
          RunResult.ok (read_binary (env.fileBytes f) dim t)
        else _) = _
  rw [hex]
  exact if_pos rfl

theorem C4_input_selection_witness :
    envBothInputs.fileExists "input.dat" = true ∧
    acquireData "gwave" envBothInputs none 1 TypeCode.d =
      RunResult.ok (read_stdin envBothInputs.stdinBytes 1 TypeCode.d) ∧
    acquireData "gwave" envBothInputs (some "input.dat") 1 TypeCode.d =
      RunResult.ok (read_binary (envBothInputs.fileBytes "input.dat") 1 TypeCode.d) :=
  ⟨rfl, C4_input_selection "gwave" envBothInputs "input.dat" 1 TypeCode.d rfl⟩

/-- C6: a non-existent input file path makes the tool exit with status 1
after writing the tool-name-prefixed message `"<tool>: Cannot open <path>!"`
to the error stream, and the file's contents are never consulted — the
outcome is identical under every assignment of file contents. -/
theorem C6_missing_file (tool : String) (env : Env) (f : String)
    (dim : Nat) (t : TypeCode) (bytes2 : String → List Nat)
    (hex : env.fileExists f = false) :
    acquireData tool env (some f) dim t =
      RunResult.exited 1 (print_error_message tool ("Cannot open " ++ f)) ∧
    acquireData tool { env with fileBytes := bytes2 } (some f) dim t =
      acquireData tool env (some f) dim t ∧
    print_error_message "gwave" "Cannot open data.bin" =
      "gwave: Cannot open data.bin!" := by
  have h1 : ∀ (e2 : Env), e2.fileExists = env.fileExists →
      acquireData tool e2 (some f) dim t =
        RunResult.exited 1 (print_error_message tool ("Cannot open " ++ f)) := by
    intro e2 he2
    show (if e2.fileExists f then
            RunResult.ok (read_binary (e2.fileBytes f) dim t)
          else _) = _
    rw [he2, hex]
    exact if_neg (by simp)
  refine ⟨h1 env rfl, ?_, by decide⟩
  rw [h1 env rfl, h1 { env with fileBytes := bytes2 } rfl]

theorem C6_missing_file_witness :
    envNoFile.fileExists "missing.bin" = false ∧
    acquireData "gseries" envNoFile (some "missing.bin") 1 TypeCode.d =
      RunResult.exited 1
        (print_error_message "gseries" ("Cannot open " ++ "missing.bin")) ∧
    acquireData "gseries" { envNoFile with fileBytes := fun _ => [9, 9] }
        (some "missing.bin") 1 TypeCode.d =
      acquireData "gseries" envNoFile (some "missing.bin") 1 TypeCode.d ∧
    print_error_message "gwave" "Cannot open data.bin" =
      "gwave: Cannot open data.bin!" :=
  ⟨rfl, C6_missing_file "gseries" envNoFile "missing.bin" 1 TypeCode.d
    (fun _ => [9, 9]) rfl⟩

/-- C8: warnings are non-fatal — when gseries decodes more than 100000 data
points (with the default whole-range selection), it emits the
tool-name-prefixed warning `"gseries: Too many data points. ..."` through
`warnings.warn` and still proceeds to render and write the output image,
finishing with exit status 0. -/
theorem C8_warning_nonfatal (data : List Nat) (out_file : String)
    (h : 100000 < data.length) :
    (gseriesMain data 0 none out_file).events =
      [print_warn_message "gseries" "Too many data points. This takes a long time.",
       Event.writeImage out_file] ∧
    (gseriesMain data 0 none out_file).exitCode = 0 ∧
    print_warn_message "gseries" "Too many data points. This takes a long time." =
      Event.warn "gseries: Too many data points. This takes a long time." := by
  have hy : selectPortion data 0 none = data := by
    simp [selectPortion, pySlice]
  refine ⟨?_, rfl, by decide⟩
  show (if 100000 < (selectPortion data 0 none).length then _ else []) ++ _ = _
  rw [hy, if_pos h]
  rfl

theorem C8_warning_nonfatal_witness :
    100000 < (List.replicate 100001 (3 : Nat)).length ∧
    (gseriesMain (List.replicate 100001 3) 0 none "out.png").events =
      [print_warn_message "gseries" "Too many data points. This takes a long time.",
       Event.writeImage "out.png"] ∧
    (gseriesMain (List.replicate 100001 3) 0 none "out.png").exitCode = 0 :=
  ⟨by rw [List.length_replicate]; omega,
   (C8_warning_nonfatal (List.replicate 100001 3) "out.png"
     (by rw [List.length_replicate]; omega)).1,
   (C8_warning_nonfatal (List.replicate 100001 3) "out.png"
     (by rw [List.length_replicate]; omega)).2.1⟩

/-- C9: in every tool that slices with `-s` / `-e` (gwave, gseries,
gspecgram) or start/end frame numbers (grlogsp), the selected portion
`data[s : None if e is None else e + 1]` is the inclusive range from index
`s` through index `e`: it has `e + 1 - s` entries, its last entry is the
element at index `e`, and when `-e` is omitted the selection extends to the
end of the data. -/
theorem C9_inclusive_slice {α : Type} (data : List α) (s e : Nat)
    (hse : s ≤ e) (he : e < data.length) :
    selectPortion data s none = data.drop s ∧
    selectPortion data s (some e) = (data.drop s).take (e + 1 - s) ∧
    (selectPortion data s (some e)).length = e + 1 - s ∧
    (selectPortion data s (some e)).getLast? = data[e]? := by
  have heq : selectPortion data s (some e) = (data.drop s).take (e + 1 - s) := by
    show (data.take (e + 1)).drop s = _
    rw [List.drop_take]
  have hlen : (selectPortion data s (some e)).length = e + 1 - s := by
    rw [heq, List.length_take, List.length_drop]
    omega
  refine ⟨rfl, heq, hlen, ?_⟩
  rw [List.getLast?_eq_getElem?, hlen, heq]
  have h1 : e + 1 - s - 1 < e + 1 - s := by omega
  rw [List.getElem?_take, if_pos h1, List.getElem?_drop]
  congr 1
  omega

theorem C9_inclusive_slice_witness :
    selectPortion [10, 20, 30, 40, 50] 1 none = [10, 20, 30, 40, 50].drop 1 ∧
    selectPortion [10, 20, 30, 40, 50] 1 (some 3) =
      ([10, 20, 30, 40, 50].drop 1).take 3 ∧
    (selectPortion [10, 20, 30, 40, 50] 1 (some 3)).length = 3 ∧
    (selectPortion [10, 20, 30, 40, 50] 1 (some 3)).getLast? =
      [10, 20, 30, 40, 50][3]? :=
  C9_inclusive_slice [10, 20, 30, 40, 50] 1 3 (by decide) (by decide)

/-- The while loop of the reader, run with enough fuel, exits by one of its
two break conditions and returns the accumulated records. -/
theorem readLoop_complete (bw dim : Nat) :
    ∀ (fuel : Nat) (src : List Nat) (acc : List (List Nat)),
      src.length < fuel →
      readLoop bw dim fuel src acc =
        some (acc.reverse ++ readData bw dim src) := by
  intro fuel
  induction fuel with
  | zero => intro src acc h; omega
  | succ n ih =>
    intro src acc h
    by_cases h1 : src.take (bw * dim) = []
    · have hdata : readData bw dim src = [] := by
        rcases List.take_eq_nil_iff.mp h1 with h2 | h2
        · exact readData_zero bw dim src h2
        · rw [h2]; exact readData_nil bw dim
      show (if src.take (bw * dim) = [] then some acc.reverse else _) = _
      rw [if_pos h1, hdata, List.append_nil]
    · have hchunk : bw * dim ≠ 0 := by
        intro h0; exact h1 (by simp [h0])
      have hsrc : src ≠ [] := by
        intro h0; exact h1 (by simp [h0])
      have hmin := List.length_take (bw * dim) src
      by_cases h2 : (src.take (bw * dim)).length = bw * dim
      · have hle : bw * dim ≤ src.length := by
          rw [hmin] at h2; omega
        have hdrop : (src.drop (bw * dim)).length < n := by
          have h3 : 0 < src.length := List.length_pos.mpr hsrc
          rw [List.length_drop]
          omega
        show (if src.take (bw * dim) = [] then some acc.reverse
              else if (src.take (bw * dim)).length = bw * dim then
                readLoop bw dim n (src.drop (bw * dim))
                  (src.take (bw * dim) :: acc)
              else some acc.reverse) = _
        rw [if_neg h1, if_pos h2, ih _ _ hdrop,
          readData_step bw dim src hchunk hle]
        simp
      · have hlt : src.length < bw * dim := by
          rw [hmin] at h2; omega
        have hdata : readData bw dim src = [] :=
          readData_short bw dim src hsrc hlt
        show (if src.take (bw * dim) = [] then some acc.reverse
              else if (src.take (bw * dim)).length = bw * dim then
                readLoop bw dim n (src.drop (bw * dim))
                  (src.take (bw * dim) :: acc)
              else some acc.reverse) = _
        rw [if_neg h1, if_neg h2, hdata, List.append_nil]

/-- C10: the reader's decode loop terminates on every finite byte source for
every valid type code and every `dim >= 0` — with any iteration bound larger
than the source length the loop has already exited by one of its break
conditions (empty read, or short chunk failing to unpack) and returned the
accumulated records; in particular for `dim = 0` the zero-byte read returns
the empty buffer at once, so the loop stops immediately and the reader
returns an empty flat array regardless of the stream's contents. -/
theorem C10_loop_terminates (t : TypeCode) (dim fuel : Nat) (src : List Nat)
    (acc : List (List Nat)) (hfuel : src.length < fuel) :
    readLoop (byteSize t) dim fuel src acc =
      some (acc.reverse ++ readData (byteSize t) dim src) ∧
    readLoop (byteSize t) 0 fuel src acc = some acc.reverse ∧
    read_binary src 0 t = DecodedArray.flat [] := by
  refine ⟨readLoop_complete (byteSize t) dim fuel src acc hfuel, ?_, ?_⟩
  · obtain ⟨n, hn⟩ : ∃ n, fuel = n + 1 := ⟨fuel - 1, by omega⟩
    subst hn
    show (if src.take (byteSize t * 0) = [] then some acc.reverse else _) = _
    rw [Nat.mul_zero, List.take_zero]
    exact if_pos rfl
  · have hdata : readData (byteSize t) 0 src = [] :=
      readData_zero (byteSize t) 0 src (Nat.mul_zero _)
    rw [read_binary, readRecords, hdata]
    rfl

theorem C10_loop_terminates_witness :
    (List.replicate 10 (1 : Nat)).length < 20 ∧
    readLoop (byteSize TypeCode.d) 1 20 (List.replicate 10 1) [] =
      some ([].reverse ++ readData (byteSize TypeCode.d) 1 (List.replicate 10 1)) ∧
    readLoop (byteSize TypeCode.d) 0 20 (List.replicate 10 1) [] =
      some ([] : List (List Nat)).reverse ∧
    read_binary (List.replicate 10 1) 0 TypeCode.d = DecodedArray.flat [] :=
  ⟨by decide, C10_loop_terminates TypeCode.d 1 20 (List.replicate 10 1) []
    (by decide)⟩

end SPTKDraw
